import Mathlib

/-!
Verification of the fpga_fir_toolkit numeric core.

Shallow embedding (over `ℚ` for the real-valued signal path and `ℤ` for the
integer/fixed-point path) of the numeric core of `fpga_fir_toolkit`:

* `fixed_point.py` : `float_to_fixed_point`, `apply_fixed_point_filter`, and
  the per-sample ADC quantization step of `apply_fixed_point_filter_8bit_adc`;
* `adc_simulation.py` : `simulate_8bit_adc`;
* `signal_processing.py` / `filter_design.py` : the modulation-type and
  window-type dispatch (error behavior).

Modelling conventions:
* Python floats are modelled as exact rationals; the float-valued signal path
  carries no rounding beyond the explicit rounding/truncation steps of the code.
* numpy integer arithmetic wraps; the `int32` product inside the filter MAC is
  modelled with an explicit wrap (`wrap32`).  `float -> int` conversions
  (`int(..)`, `.astype(np.int32)`) truncate toward zero (`truncQ`), and every
  `int32` store keeps only 32 bits (`wrap32`; its doc comment states the
  convention for out-of-range casts).
* Raise paths that decide a claim are modelled with `Except`: the string
  dispatches of `generate_iq_signal` and `design_fir_lowpass`, and
  `simulate_8bit_adc_checked` for the `ValueError` that `np.max` raises on an
  empty array.
* `np.round` rounds half to even (`npRound`); Mathlib's `round` (half up) is
  used only to state the spec's "round to nearest" where a claim demands it.
* numpy's `>>` on signed integers is an arithmetic shift, i.e. floor division
  by a power of two; `Int` division in Lean (Euclidean) agrees with it for the
  positive power-of-two divisors used here.
* Transcendental report metrics (`10*log10`, ENOB) are not representable in
  `ℚ`; the reports carry the exact power ratio, with `Option.none` standing
  for the code's `float('inf')` sentinel branch.  Report fields never read by
  any claim (and the optional Gaussian-noise path, which draws from an RNG)
  are omitted from the embedded records.
-/

set_option maxHeartbeats 1000000

/-! ## Generic numeric helpers -/

/-- Truncation toward zero, the semantics of Python `int(..)` and of numpy
`.astype(np.int32)` on in-range values. -/
def truncQ (q : ℚ) : ℤ := if q < 0 then ⌈q⌉ else ⌊q⌋

/-- Two's-complement wrap to a signed 32-bit integer: the overflow behavior of
numpy `int32` arithmetic, and the range bound every `int32` store obeys.  A
numpy float-to-int32 cast of an out-of-range value is platform dependent, but
its result is always an `int32`; the embedding adopts the two's-complement
wrap (truncation to the low 32 bits), and every claim that needs the exact
value of such a cast carries an explicit in-range hypothesis under which the
wrap is the identity. -/
def wrap32 (x : ℤ) : ℤ := (x + 2 ^ 31) % 2 ^ 32 - 2 ^ 31

theorem wrap32_eq_self {x : ℤ} (h1 : -2 ^ 31 ≤ x) (h2 : x ≤ 2 ^ 31 - 1) :
    wrap32 x = x := by
  unfold wrap32
  omega

theorem wrap32_bounds (x : ℤ) : -2 ^ 31 ≤ wrap32 x ∧ wrap32 x ≤ 2 ^ 31 - 1 := by
  unfold wrap32
  omega

/-- Embeds `np.round`: round to nearest, ties to even (banker's rounding). -/
def npRound (q : ℚ) : ℤ :=
  if q - ⌊q⌋ < 1 / 2 then ⌊q⌋
  else if 1 / 2 < q - ⌊q⌋ then ⌊q⌋ + 1
  else if 2 ∣ ⌊q⌋ then ⌊q⌋ else ⌊q⌋ + 1

/-- Arithmetic right shift on signed integers (numpy `>>`): floor division by a
power of two. -/
def asr (x : ℤ) (s : ℕ) : ℤ := x / 2 ^ s

/-- Embeds `np.max` on a nonempty list of integers.  `np.max` raises
`ValueError` on an empty array: that error path is modelled by
`simulate_8bit_adc_checked`, and every claim about the reduction itself
carries a nonempty hypothesis; the `0` of the empty case here is a junk value
reachable only behind that guard. -/
def listMax : List ℤ → ℤ
  | [] => 0
  | x :: xs => xs.foldl max x

/-- Embeds `np.min` on a nonempty list of integers (empty case: junk value
`0` behind the same guard as `listMax`). -/
def listMin : List ℤ → ℤ
  | [] => 0
  | x :: xs => xs.foldl min x

/-- Embeds `np.mean` (empty list: `0`, where numpy would produce NaN). -/
def meanQ (l : List ℚ) : ℚ := l.sum / l.length

/-- Embeds `np.var`, the population variance (empty list: `0`). -/
def varQ (l : List ℚ) : ℚ := ((l.map fun x => (x - meanQ l) ^ 2).sum) / l.length

theorem npRound_intCast (z : ℤ) : npRound (z : ℚ) = z := by
  unfold npRound
  rw [Int.floor_intCast]
  simp

theorem floor_le_npRound (q : ℚ) : ⌊q⌋ ≤ npRound q := by
  unfold npRound
  split_ifs <;> omega

theorem le_npRound_of_le {a : ℤ} {q : ℚ} (h : (a : ℚ) ≤ q) : a ≤ npRound q :=
  le_trans (Int.le_floor.mpr h) (floor_le_npRound q)

theorem npRound_le_of_le {q : ℚ} {b : ℤ} (h : q ≤ (b : ℚ)) : npRound q ≤ b := by
  unfold npRound
  have hfl : ⌊q⌋ ≤ b := Int.floor_le_floor h |>.trans_eq (Int.floor_intCast b)
  split_ifs with h1 h2 h3
  · exact hfl
  · -- here 1/2 < q - ⌊q⌋, so q is not an integer and ⌊q⌋ < b
    have hq : (⌊q⌋ : ℚ) < q := by linarith
    rcases eq_or_lt_of_le hfl with he | hl
    · exfalso
      have : q ≤ (⌊q⌋ : ℚ) := by rw [he]; exact h
      linarith
    · omega
  · exact hfl
  · have hq : (⌊q⌋ : ℚ) < q := by
      have : (1 : ℚ) / 2 ≤ q - ⌊q⌋ := le_of_not_lt h1
      linarith
    rcases eq_or_lt_of_le hfl with he | hl
    · exfalso
      have : q ≤ (⌊q⌋ : ℚ) := by rw [he]; exact h
      linarith
    · omega

theorem abs_sub_npRound_le (q : ℚ) : |q - npRound q| ≤ 1 / 2 := by
  unfold npRound
  have h0 : (⌊q⌋ : ℚ) ≤ q := Int.floor_le q
  have h1 : q < (⌊q⌋ : ℚ) + 1 := Int.lt_floor_add_one q
  split_ifs with ha hb hc
  · rw [abs_of_nonneg (by linarith)]; linarith
  · push_cast
    rw [abs_of_nonpos (by linarith)]; linarith
  · have he : q - ⌊q⌋ = 1 / 2 := le_antisymm (le_of_not_lt hb) (le_of_not_lt ha)
    rw [abs_of_nonneg (by linarith)]; linarith
  · have he : q - ⌊q⌋ = 1 / 2 := le_antisymm (le_of_not_lt hb) (le_of_not_lt ha)
    push_cast
    rw [abs_of_nonpos (by linarith)]; linarith

/-- Lemma: `getD` commutes with `map` at in-range indices (any defaults). -/
theorem getD_map_of_lt {α β : Type} (f : α → β) (l : List α) (i : ℕ)
    (h : i < l.length) (d : α) (e : β) : (l.map f).getD i e = f (l.getD i d) := by
  induction l generalizing i with
  | nil => simp at h
  | cons x xs ih =>
    cases i with
    | zero => simp
    | succ j =>
      simp only [List.map_cons, List.getD_cons_succ]
      exact ih j (by simpa using h)

/-- Lemma: `getD` on `List.range` at an in-range index. -/
theorem getD_range_of_lt {N n : ℕ} (h : n < N) (d : ℕ) :
    (List.range N).getD n d = n := by
  rw [List.getD_eq_getElem _ _ (by simpa using h), List.getElem_range]

/-! ## `float_to_fixed_point` (fixed_point.py, lines 49-89)

Bit counts are `ℤ` because the code performs no validation: Python computes
`2 ** (total_bits - 1)` as a float power for non-positive `total_bits`, which
the `ℚ`-valued `zpow` reproduces exactly. -/

/-- The conversion report of `float_to_fixed_point` (fields used by the
claims; the error statistics `max/mean_quantization_error` and the echo of the
input are omitted). -/
structure ConvInfo where
  scale_factor : ℚ
  max_representable : ℚ
  min_representable : ℚ
  overflow_count : ℕ
  overflow_indices : List ℕ
  reconstructed_coeffs : List ℚ

/-- Embeds `float_to_fixed_point(coeffs, int_bits, frac_bits)`: scale by
`2^frac_bits`, record overflow indices, saturate with `np.clip`, round with
`np.round` and store as `int32` (`.astype(np.int32)`, line 68, modelled by
`wrap32`; exact whenever the rounded value fits `int32`, i.e. whenever
`int_bits + frac_bits ≤ 32`), and report the reconstruction
`fixed / scale_factor`. -/
def float_to_fixed_point (coeffs : List ℚ) (int_bits frac_bits : ℤ) :
    List ℤ × ConvInfo :=
  let total_bits := int_bits + frac_bits
  let scale_factor : ℚ := 2 ^ frac_bits
  let max_val : ℚ := 2 ^ (total_bits - 1) - 1
  let min_val : ℚ := -2 ^ (total_bits - 1)
  let scaled_coeffs := coeffs.map (· * scale_factor)
  let overflow_indices := (List.range coeffs.length).filter
    fun i => decide (max_val < scaled_coeffs.getD i 0 ∨ scaled_coeffs.getD i 0 < min_val)
  let saturated_coeffs := scaled_coeffs.map fun x => min (max x min_val) max_val
  let fixed_point_coeffs := saturated_coeffs.map fun x => wrap32 (npRound x)
  (fixed_point_coeffs,
    { scale_factor := scale_factor
      max_representable := max_val / scale_factor
      min_representable := min_val / scale_factor
      overflow_count := overflow_indices.length
      overflow_indices := overflow_indices
      reconstructed_coeffs := fixed_point_coeffs.map fun z => (z : ℚ) / scale_factor })

/-- Per-index characterization of the fixed-point output: scale, saturate
(`np.clip`), round (`np.round`), store as `int32`. -/
theorem float_to_fixed_point_getD (coeffs : List ℚ) (int_bits frac_bits : ℤ)
    (i : ℕ) (hi : i < coeffs.length) :
    (float_to_fixed_point coeffs int_bits frac_bits).1.getD i 0 =
      wrap32 (npRound (min (max (coeffs.getD i 0 * 2 ^ frac_bits)
        (-2 ^ (int_bits + frac_bits - 1))) (2 ^ (int_bits + frac_bits - 1) - 1))) := by
  simp only [float_to_fixed_point]
  rw [getD_map_of_lt _ _ _ (by simpa using hi) (0 : ℚ) (0 : ℤ),
    getD_map_of_lt _ _ _ (by simpa using hi) (0 : ℚ) (0 : ℚ),
    getD_map_of_lt _ _ _ hi (0 : ℚ) (0 : ℚ)]

/-- C1 counterexample: with `int_bits = 1`, `frac_bits = 32` (33 total bits)
the scaled coefficient `2 * 2^32` exceeds `max_val = 2^32 - 1`, yet the stored
value is `-1`, not the clamp `max_val`: beyond 32 total bits the saturated
value no longer fits the int32 output array of line 68, so the claimed
"clamped, never wrapped" guarantee fails inside the claim's domain. -/
theorem c1_counterexample :
    ((2 ^ ((1 : ℤ) + 32 - 1) - 1 : ℚ) < ([(2 : ℚ)] : List ℚ).getD 0 0 * 2 ^ (32 : ℤ)) ∧
    (float_to_fixed_point [(2 : ℚ)] 1 32).1.getD 0 0 = -1 ∧
    (-1 : ℤ) ≠ 2 ^ ((1 : ℤ) + 32 - 1).toNat - 1 := by
  refine ⟨by norm_num, ?_, by decide⟩
  rw [float_to_fixed_point_getD [(2 : ℚ)] 1 32 0 (by norm_num)]
  rw [show (min (max (([(2 : ℚ)] : List ℚ).getD 0 0 * 2 ^ (32 : ℤ))
      (-2 ^ ((1 : ℤ) + 32 - 1))) (2 ^ ((1 : ℤ) + 32 - 1) - 1))
      = ((2 ^ 32 - 1 : ℤ) : ℚ) from by
    push_cast
    norm_num [max_def, min_def]]
  rw [npRound_intCast]
  decide

/-- C1 (amended): for `int_bits ≥ 1`, `frac_bits ≥ 0` the output always has
the input's length, every stored value lies in
`[-2^(int_bits+frac_bits-1), 2^(int_bits+frac_bits-1)-1]`, and the function is
total (no exception for overflow); the exact-saturation guarantee — scaled
values above `max_val` stored as `max_val`, below `min_val` as `min_val`,
never wrapped — holds whenever `int_bits + frac_bits ≤ 32`, the widths whose
saturated values fit the int32 output array. -/
theorem c1_fixed_point_length_and_range (coeffs : List ℚ) (int_bits frac_bits : ℤ)
    (hib : 1 ≤ int_bits) (hfb : 0 ≤ frac_bits) :
    (float_to_fixed_point coeffs int_bits frac_bits).1.length = coeffs.length ∧
    (∀ z ∈ (float_to_fixed_point coeffs int_bits frac_bits).1,
      -(2 ^ (int_bits + frac_bits - 1).toNat) ≤ z ∧
        z ≤ 2 ^ (int_bits + frac_bits - 1).toNat - 1) ∧
    (int_bits + frac_bits ≤ 32 →
      (∀ i, i < coeffs.length →
        ((2 ^ (int_bits + frac_bits - 1).toNat - 1 : ℤ) : ℚ) <
            coeffs.getD i 0 * 2 ^ frac_bits →
        (float_to_fixed_point coeffs int_bits frac_bits).1.getD i 0 =
          2 ^ (int_bits + frac_bits - 1).toNat - 1) ∧
      (∀ i, i < coeffs.length →
        coeffs.getD i 0 * 2 ^ frac_bits <
            ((-(2 ^ (int_bits + frac_bits - 1).toNat) : ℤ) : ℚ) →
        (float_to_fixed_point coeffs int_bits frac_bits).1.getD i 0 =
          -(2 ^ (int_bits + frac_bits - 1).toNat))) := by
  have hexp : int_bits + frac_bits - 1 = ((int_bits + frac_bits - 1).toNat : ℤ) :=
    (Int.toNat_of_nonneg (by omega)).symm
  set e : ℕ := (int_bits + frac_bits - 1).toNat with he
  have hpow : (2 : ℚ) ^ (int_bits + frac_bits - 1) = ((2 ^ e : ℤ) : ℚ) := by
    rw [hexp, zpow_natCast]; push_cast; ring
  have hmax : ((2 : ℚ) ^ (int_bits + frac_bits - 1) - 1) = ((2 ^ e - 1 : ℤ) : ℚ) := by
    rw [hpow]; push_cast; ring
  have hmin : (-(2 : ℚ) ^ (int_bits + frac_bits - 1)) = ((-(2 ^ e) : ℤ) : ℚ) := by
    rw [hpow]; push_cast; ring
  have h2pos : (1 : ℤ) ≤ 2 ^ e := by exact_mod_cast Nat.one_le_two_pow (n := e)
  have hmmZ : (-(2 ^ e) : ℤ) ≤ 2 ^ e - 1 := by linarith
  have hminmax : ((-(2 ^ e) : ℤ) : ℚ) ≤ ((2 ^ e - 1 : ℤ) : ℚ) := by exact_mod_cast hmmZ
  refine ⟨by simp [float_to_fixed_point], ?_, ?_⟩
  · intro z hz
    simp only [float_to_fixed_point, List.mem_map] at hz
    obtain ⟨y, ⟨x, ⟨c, hc, rfl⟩, rfl⟩, rfl⟩ := hz
    have hlo : -(2 ^ e) ≤ npRound (min (max (c * 2 ^ frac_bits)
        (-2 ^ (int_bits + frac_bits - 1))) (2 ^ (int_bits + frac_bits - 1) - 1)) := by
      apply le_npRound_of_le
      rw [← hmin]
      exact le_min (le_max_right _ _) (by rw [hmin, hmax]; exact hminmax)
    have hhi : npRound (min (max (c * 2 ^ frac_bits)
        (-2 ^ (int_bits + frac_bits - 1))) (2 ^ (int_bits + frac_bits - 1) - 1)) ≤
        2 ^ e - 1 := by
      apply npRound_le_of_le
      rw [← hmax]
      exact min_le_right _ _
    rcases le_or_lt e 31 with h31 | h31
    · have h2e : (2 : ℤ) ^ e ≤ 2 ^ 31 := by
        exact_mod_cast Nat.pow_le_pow_right (by norm_num) h31
      rw [wrap32_eq_self (by omega) (by omega)]
      exact ⟨hlo, hhi⟩
    · have hb := wrap32_bounds (npRound (min (max (c * 2 ^ frac_bits)
        (-2 ^ (int_bits + frac_bits - 1))) (2 ^ (int_bits + frac_bits - 1) - 1)))
      have h2e : (2 : ℤ) ^ 31 ≤ 2 ^ e := by
        exact_mod_cast Nat.pow_le_pow_right (by norm_num) (le_of_lt h31)
      exact ⟨by omega, by omega⟩
  · intro hw32
    have he31 : e ≤ 31 := by omega
    have h2e : (2 : ℤ) ^ e ≤ 2 ^ 31 := by
      exact_mod_cast Nat.pow_le_pow_right (by norm_num) he31
    constructor
    · intro i hi hgt
      rw [float_to_fixed_point_getD coeffs int_bits frac_bits i hi, hmin, hmax]
      have h1 : max (coeffs.getD i 0 * 2 ^ frac_bits) ((-(2 ^ e) : ℤ) : ℚ) =
          coeffs.getD i 0 * 2 ^ frac_bits :=
        max_eq_left (le_trans hminmax (le_of_lt hgt))
      rw [h1, min_eq_right (le_of_lt hgt), npRound_intCast,
        wrap32_eq_self (by omega) (by omega)]
    · intro i hi hlt
      rw [float_to_fixed_point_getD coeffs int_bits frac_bits i hi, hmin, hmax]
      have h1 : max (coeffs.getD i 0 * 2 ^ frac_bits) ((-(2 ^ e) : ℤ) : ℚ) =
          ((-(2 ^ e) : ℤ) : ℚ) := max_eq_right (le_of_lt hlt)
      rw [h1, min_eq_left hminmax, npRound_intCast,
        wrap32_eq_self (by omega) (by omega)]

/-- Witness for C1 (amended) at `coeffs = [1/10, 1/2, -3/10]`, Q1.15. -/
theorem c1_fixed_point_length_and_range_witness :
    (1 : ℤ) ≤ 1 ∧ (0 : ℤ) ≤ 15 ∧
    ((float_to_fixed_point [1/10, 1/2, -3/10] 1 15).1.length = 3 ∧
      (∀ z ∈ (float_to_fixed_point [1/10, 1/2, -3/10] 1 15).1,
        -(2 ^ ((1 : ℤ) + 15 - 1).toNat) ≤ z ∧
          z ≤ 2 ^ ((1 : ℤ) + 15 - 1).toNat - 1) ∧
      ((1 : ℤ) + 15 ≤ 32 →
        (∀ i, i < ([1/10, 1/2, -3/10] : List ℚ).length →
          ((2 ^ ((1 : ℤ) + 15 - 1).toNat - 1 : ℤ) : ℚ) <
              ([1/10, 1/2, -3/10] : List ℚ).getD i 0 * 2 ^ (15 : ℤ) →
          (float_to_fixed_point [1/10, 1/2, -3/10] 1 15).1.getD i 0 =
            2 ^ ((1 : ℤ) + 15 - 1).toNat - 1) ∧
        (∀ i, i < ([1/10, 1/2, -3/10] : List ℚ).length →
          ([1/10, 1/2, -3/10] : List ℚ).getD i 0 * 2 ^ (15 : ℤ) <
              ((-(2 ^ ((1 : ℤ) + 15 - 1).toNat) : ℤ) : ℚ) →
          (float_to_fixed_point [1/10, 1/2, -3/10] 1 15).1.getD i 0 =
            -(2 ^ ((1 : ℤ) + 15 - 1).toNat)))) := by
  refine ⟨le_refl 1, by norm_num, ?_⟩
  have h := c1_fixed_point_length_and_range [1/10, 1/2, -3/10] 1 15 (le_refl 1) (by norm_num)
  simpa using h

/-- C4 counterexample: with `int_bits = 34`, `frac_bits = 0` the coefficient
`2^32` scales to itself, strictly inside `[min_val, max_val] = [-2^33, 2^33-1]`
(no saturation), yet the int32 output array of line 68 cannot store `2^32`:
the stored value is `0` and the reconstruction error is `2^32`, far above the
claimed half-LSB bound `1/2`. -/
theorem c4_counterexample :
    (-2 ^ ((34 : ℤ) + 0 - 1) ≤ ([(2 ^ 32 : ℚ)] : List ℚ).getD 0 0 * 2 ^ (0 : ℤ)) ∧
    (([(2 ^ 32 : ℚ)] : List ℚ).getD 0 0 * 2 ^ (0 : ℤ) ≤ 2 ^ ((34 : ℤ) + 0 - 1) - 1) ∧
    ¬ (|([(2 ^ 32 : ℚ)] : List ℚ).getD 0 0 -
          ((float_to_fixed_point [(2 ^ 32 : ℚ)] 34 0).1.getD 0 0 : ℚ) /
            (float_to_fixed_point [(2 ^ 32 : ℚ)] 34 0).2.scale_factor| ≤
        1 / (2 * (float_to_fixed_point [(2 ^ 32 : ℚ)] 34 0).2.scale_factor)) := by
  have hsfeq : (float_to_fixed_point [(2 ^ 32 : ℚ)] 34 0).2.scale_factor
      = (2 : ℚ) ^ (0 : ℤ) := rfl
  have hval : (float_to_fixed_point [(2 ^ 32 : ℚ)] 34 0).1.getD 0 0 = 0 := by
    rw [float_to_fixed_point_getD [(2 ^ 32 : ℚ)] 34 0 0 (by norm_num)]
    rw [show (min (max (([(2 ^ 32 : ℚ)] : List ℚ).getD 0 0 * 2 ^ (0 : ℤ))
        (-2 ^ ((34 : ℤ) + 0 - 1))) (2 ^ ((34 : ℤ) + 0 - 1) - 1)) = ((2 ^ 32 : ℤ) : ℚ) from by
      push_cast
      norm_num [max_def, min_def]]
    rw [npRound_intCast]
    decide
  refine ⟨by norm_num, by norm_num, ?_⟩
  rw [hval, hsfeq]
  norm_num

/-- C4 (amended): for widths with `int_bits + frac_bits ≤ 32` (the rounded
value fits the int32 output array), when the scaled coefficient lies in
`[min_val, max_val]` (no saturation) the reconstruction `fixed / scale_factor`
is within a half LSB, `1 / (2 * scale_factor)`, of the original
coefficient. -/
theorem c4_round_trip_half_lsb (coeffs : List ℚ) (int_bits frac_bits : ℤ) (i : ℕ)
    (hi : i < coeffs.length) (hw : int_bits + frac_bits ≤ 32)
    (hlo : -2 ^ (int_bits + frac_bits - 1) ≤ coeffs.getD i 0 * 2 ^ frac_bits)
    (hhi : coeffs.getD i 0 * 2 ^ frac_bits ≤ 2 ^ (int_bits + frac_bits - 1) - 1) :
    |coeffs.getD i 0 -
        ((float_to_fixed_point coeffs int_bits frac_bits).1.getD i 0 : ℚ) /
          (float_to_fixed_point coeffs int_bits frac_bits).2.scale_factor| ≤
      1 / (2 * (float_to_fixed_point coeffs int_bits frac_bits).2.scale_factor) := by
  have hsfeq : (float_to_fixed_point coeffs int_bits frac_bits).2.scale_factor
      = (2 : ℚ) ^ frac_bits := rfl
  have hsf : (0 : ℚ) < 2 ^ frac_bits := by positivity
  have hzle : (2 : ℚ) ^ (int_bits + frac_bits - 1) ≤ (2 : ℚ) ^ (31 : ℤ) :=
    zpow_le_zpow_right₀ (by norm_num) (by omega)
  have hRlo : ((-(2 ^ 31) : ℤ) : ℚ) ≤ coeffs.getD i 0 * 2 ^ frac_bits := by
    have hc : ((-(2 ^ 31) : ℤ) : ℚ) = -(2 : ℚ) ^ (31 : ℤ) := by norm_num
    rw [hc]
    linarith
  have hRhi : coeffs.getD i 0 * 2 ^ frac_bits ≤ ((2 ^ 31 - 1 : ℤ) : ℚ) := by
    have hc : ((2 ^ 31 - 1 : ℤ) : ℚ) = (2 : ℚ) ^ (31 : ℤ) - 1 := by norm_num
    rw [hc]
    linarith
  have hnlo : -(2 ^ 31) ≤ npRound (coeffs.getD i 0 * 2 ^ frac_bits) :=
    le_npRound_of_le hRlo
  have hnhi : npRound (coeffs.getD i 0 * 2 ^ frac_bits) ≤ 2 ^ 31 - 1 :=
    npRound_le_of_le hRhi
  rw [hsfeq, float_to_fixed_point_getD coeffs int_bits frac_bits i hi,
    max_eq_left hlo, min_eq_left hhi, wrap32_eq_self (by omega) (by omega)]
  have herr : |coeffs.getD i 0 * 2 ^ frac_bits -
      (npRound (coeffs.getD i 0 * 2 ^ frac_bits) : ℚ)| ≤ 1 / 2 :=
    abs_sub_npRound_le _
  have hrw : coeffs.getD i 0 - (npRound (coeffs.getD i 0 * 2 ^ frac_bits) : ℚ) / 2 ^ frac_bits
      = (coeffs.getD i 0 * 2 ^ frac_bits - npRound (coeffs.getD i 0 * 2 ^ frac_bits)) /
        2 ^ frac_bits := by
    field_simp
  rw [hrw, abs_div, abs_of_pos hsf, ← div_div]
  exact div_le_div_of_nonneg_right herr hsf.le

/-- Witness for C4 (amended) at coefficient `1/10` in Q1.15. -/
theorem c4_round_trip_half_lsb_witness :
    (0 : ℕ) < ([1/10] : List ℚ).length ∧ ((1 : ℤ) + 15 ≤ 32) ∧
    (-2 ^ ((1 : ℤ) + 15 - 1) ≤ ([1/10] : List ℚ).getD 0 0 * (2 : ℚ) ^ (15 : ℤ)) ∧
    (([1/10] : List ℚ).getD 0 0 * (2 : ℚ) ^ (15 : ℤ) ≤ 2 ^ ((1 : ℤ) + 15 - 1) - 1) ∧
    |([1/10] : List ℚ).getD 0 0 -
        ((float_to_fixed_point [1/10] 1 15).1.getD 0 0 : ℚ) /
          (float_to_fixed_point [1/10] 1 15).2.scale_factor| ≤
      1 / (2 * (float_to_fixed_point [1/10] 1 15).2.scale_factor) := by
  refine ⟨by norm_num, by norm_num, by norm_num, by norm_num, ?_⟩
  exact c4_round_trip_half_lsb [1/10] 1 15 0 (by norm_num) (by norm_num) (by norm_num)
    (by norm_num)

/-! ## `apply_fixed_point_filter` (fixed_point.py, lines 92-178) -/

/-- The int32 scaled input (lines 133-135): `input_scale = int(input_scaling *
2**15)` truncates toward zero, and `(signal * input_scale).astype(np.int32)`
truncates each sample toward zero and stores it as `int32` (`wrap32`; exact
whenever `|signal * input_scale| < 2^31`, see `wrap32` for the out-of-range
convention). -/
def fpScaledInput (signal : List ℚ) (input_scaling : ℚ) : List ℤ :=
  signal.map fun s => wrap32 (truncQ (s * (truncQ (input_scaling * 2 ^ 15) : ℚ)))

/-- The multiply-accumulate inner loop (lines 151-157): guarded by
`(n - k) >= 0`; the int32*int32 product wraps (`wrap32`); the `np.int64`
accumulator is exact (it cannot wrap for fewer than `2^32` taps). -/
def fpMacc (scaled coeffs : List ℤ) (n : ℕ) : ℤ :=
  (List.range coeffs.length).foldl
    (fun acc k =>
      if k ≤ n then acc + wrap32 (scaled.getD (n - k) 0 * coeffs.getD k 0) else acc) 0

/-- Report of `apply_fixed_point_filter` (the transcendental
`effective_snr_db` metric and the echoed parameters are omitted; no claim
reads them). -/
structure FilterInfo where
  overflow_count : ℕ
  overflow_rate : ℚ

/-- Embeds `apply_fixed_point_filter` (lines 133-178): per output sample accumulate,
saturate to `[accumulator_min, accumulator_max]` counting each overflow,
arithmetic-shift by `output_shift` and scale back by `2^-15`. -/
def apply_fixed_point_filter (signal : List ℚ) (fixed_point_coeffs : List ℤ)
    (accumulator_bits output_shift : ℕ) (input_scaling : ℚ) :
    List ℚ × FilterInfo :=
  let scaled_input := fpScaledInput signal input_scaling
  let N := signal.length
  let accumulator_max : ℤ := 2 ^ (accumulator_bits - 1) - 1
  let accumulator_min : ℤ := -2 ^ (accumulator_bits - 1)
  let st := (List.range N).foldl
    (fun st n =>
      if accumulator_max < fpMacc scaled_input fixed_point_coeffs n ∨
          fpMacc scaled_input fixed_point_coeffs n < accumulator_min then
        (st.1 ++ [((asr (min (max (fpMacc scaled_input fixed_point_coeffs n)
            accumulator_min) accumulator_max) output_shift : ℤ) : ℚ) / 2 ^ 15],
          st.2 + 1)
      else
        (st.1 ++ [((asr (fpMacc scaled_input fixed_point_coeffs n) output_shift : ℤ) : ℚ)
            / 2 ^ 15],
          st.2))
    (([] : List ℚ), (0 : ℕ))
  (st.1, { overflow_count := st.2, overflow_rate := (st.2 : ℚ) / N })

/-- The filter's output/count fold, characterized: the output list is the map
of the saturated, shifted accumulator, and the counter counts the overflowing
samples. -/
theorem foldl_saturate_spec (scaled coeffs : List ℤ) (amin amax : ℤ) (os : ℕ)
    (ns : List ℕ) (acc : List ℚ × ℕ) :
    (ns.foldl
      (fun st n =>
        if amax < fpMacc scaled coeffs n ∨ fpMacc scaled coeffs n < amin then
          (st.1 ++ [((asr (min (max (fpMacc scaled coeffs n) amin) amax) os : ℤ) : ℚ)
            / 2 ^ 15], st.2 + 1)
        else (st.1 ++ [((asr (fpMacc scaled coeffs n) os : ℤ) : ℚ) / 2 ^ 15], st.2)) acc)
      = (acc.1 ++ ns.map fun n =>
            ((asr (min (max (fpMacc scaled coeffs n) amin) amax) os : ℤ) : ℚ) / 2 ^ 15,
          acc.2 + ns.countP fun n =>
            decide (amax < fpMacc scaled coeffs n ∨ fpMacc scaled coeffs n < amin)) := by
  induction ns generalizing acc with
  | nil => simp
  | cons n ns ih =>
    simp only [List.foldl_cons, List.map_cons, List.countP_cons]
    by_cases h : amax < fpMacc scaled coeffs n ∨ fpMacc scaled coeffs n < amin
    · rw [if_pos h, ih]
      simp only [Prod.mk.injEq]
      refine ⟨by simp, ?_⟩
      simp [h]
      omega
    · rw [if_neg h]
      have hcl : min (max (fpMacc scaled coeffs n) amin) amax = fpMacc scaled coeffs n := by
        push_neg at h
        rw [max_eq_left h.2, min_eq_left h.1]
      rw [show (acc.1 ++ [((asr (fpMacc scaled coeffs n) os : ℤ) : ℚ) / 2 ^ 15], acc.2)
          = (acc.1 ++ [((asr (min (max (fpMacc scaled coeffs n) amin) amax) os : ℤ) : ℚ)
            / 2 ^ 15], acc.2) by rw [hcl], ih]
      simp only [Prod.mk.injEq]
      refine ⟨by simp, ?_⟩
      simp [h]

/-- Output list and overflow count of `apply_fixed_point_filter` in closed
form. -/
theorem apply_fixed_point_filter_spec (signal : List ℚ) (coeffs : List ℤ)
    (ab os : ℕ) (isc : ℚ) :
    (apply_fixed_point_filter signal coeffs ab os isc).1 =
      ((List.range signal.length).map fun n =>
        ((asr (min (max (fpMacc (fpScaledInput signal isc) coeffs n) (-2 ^ (ab - 1)))
          (2 ^ (ab - 1) - 1)) os : ℤ) : ℚ) / 2 ^ 15) ∧
    (apply_fixed_point_filter signal coeffs ab os isc).2.overflow_count =
      (List.range signal.length).countP fun n =>
        decide (2 ^ (ab - 1) - 1 < fpMacc (fpScaledInput signal isc) coeffs n ∨
          fpMacc (fpScaledInput signal isc) coeffs n < -2 ^ (ab - 1)) := by
  simp only [apply_fixed_point_filter]
  rw [foldl_saturate_spec (fpScaledInput signal isc) coeffs
    (-2 ^ (ab - 1)) (2 ^ (ab - 1) - 1) os]
  exact ⟨by simp, by simp⟩

theorem foldl_add_ite (g : ℕ → ℤ) (p : ℕ → Prop) [DecidablePred p]
    (l : List ℕ) (a : ℤ) :
    l.foldl (fun acc k => if p k then acc + g k else acc) a
      = a + (l.map fun k => if p k then g k else 0).sum := by
  induction l generalizing a with
  | nil => simp
  | cons k l ih =>
    simp only [List.foldl_cons, List.map_cons, List.sum_cons]
    by_cases h : p k
    · rw [if_pos h, if_pos h, ih]; ring
    · rw [if_neg h, if_neg h, ih]; ring

theorem sum_map_range_eq_finset_sum (g : ℕ → ℤ) (M : ℕ) :
    ((List.range M).map g).sum = ∑ k in Finset.range M, g k := by
  induction M with
  | zero => simp
  | succ m ih =>
    rw [List.range_succ, Finset.sum_range_succ, List.map_append, List.sum_append]
    simp [ih]

/-- The MAC loop equals the guarded convolution sum. -/
theorem fpMacc_eq_sum (scaled coeffs : List ℤ) (n : ℕ) :
    fpMacc scaled coeffs n = ∑ k in Finset.range coeffs.length,
      if k ≤ n then wrap32 (scaled.getD (n - k) 0 * coeffs.getD k 0) else 0 := by
  unfold fpMacc
  rw [foldl_add_ite (fun k => wrap32 (scaled.getD (n - k) 0 * coeffs.getD k 0))
    (fun k => k ≤ n), sum_map_range_eq_finset_sum]
  simp

/-- Lemma: `getD` of a mapped `List.range` at an in-range index. -/
theorem getD_map_range (f : ℕ → ℚ) {N n : ℕ} (h : n < N) (d : ℚ) :
    ((List.range N).map f).getD n d = f n := by
  rw [getD_map_of_lt f _ n (by simpa using h) 0 d, getD_range_of_lt h]

theorem countP_range_eq_card_filter (p : ℕ → Prop) [DecidablePred p] (N : ℕ) :
    (List.range N).countP (fun n => decide (p n)) = ((Finset.range N).filter p).card := by
  induction N with
  | zero => simp
  | succ m ih =>
    rw [List.range_succ, List.countP_append, Finset.range_succ, Finset.filter_insert]
    by_cases h : p m
    · rw [if_pos h, Finset.card_insert_of_not_mem (by simp)]
      simp [h, ih]
    · rw [if_neg h]
      simp [h, ih]

/-- C2 counterexample: with `signal = [3/5]` and `input_scaling = 1` the code
scales the sample to `trunc(3/5 * 32768) = 19660`, not the claimed
`round(3/5 * 1 * 2^15) = 19661`: `.astype(np.int32)` truncates toward zero
instead of rounding to nearest. -/
theorem c2_counterexample :
    fpScaledInput [(3 : ℚ)/5] 1 ≠ [round (((3 : ℚ)/5) * 1 * 2 ^ 15)] := by
  have hin : truncQ ((1 : ℚ) * 2 ^ 15) = 32768 := by
    unfold truncQ
    rw [if_neg (by norm_num), show ((1 : ℚ) * 2 ^ 15) = ((32768 : ℤ) : ℚ) by norm_num,
      Int.floor_intCast]
  have hout : truncQ ((3 : ℚ)/5 * ((32768 : ℤ) : ℚ)) = 19660 := by
    unfold truncQ
    rw [if_neg (by norm_num), Int.floor_eq_iff]
    constructor
    · norm_num
    · norm_num
  have h1 : fpScaledInput [(3 : ℚ)/5] 1 = [19660] := by
    simp only [fpScaledInput, List.map_cons, List.map_nil, hin, hout]
    rw [show wrap32 19660 = 19660 from by decide]
  have h2 : round (((3 : ℚ)/5) * 1 * 2 ^ 15) = 19661 := by
    rw [round_eq, Int.floor_eq_iff]
    constructor
    · norm_num
    · norm_num
  rw [h1, h2]
  simp

/-- C2 (amended): the scaled input fed to the MAC is the toward-zero
truncation `trunc(signal[i] * int(input_scaling * 2^15))` stored in the int32
input array — equal to the truncation itself whenever it fits int32, and in
particular never a round to nearest; the output sample is the saturated causal
accumulation of int32-wrapped products, arithmetically right-shifted by
`output_shift` and scaled back by `2^-15`. -/
theorem c2_scaled_input_and_output (signal : List ℚ) (coeffs : List ℤ)
    (ab os : ℕ) (isc : ℚ) (n : ℕ) (hn : n < signal.length)
    (hlo : -2 ^ 31 ≤ truncQ (signal.getD n 0 * (truncQ (isc * 2 ^ 15) : ℚ)))
    (hhi : truncQ (signal.getD n 0 * (truncQ (isc * 2 ^ 15) : ℚ)) ≤ 2 ^ 31 - 1) :
    (fpScaledInput signal isc).getD n 0
      = truncQ (signal.getD n 0 * (truncQ (isc * 2 ^ 15) : ℚ)) ∧
    (apply_fixed_point_filter signal coeffs ab os isc).1.getD n 0
      = ((asr (min (max (∑ k in Finset.range coeffs.length,
            if k ≤ n then wrap32 ((fpScaledInput signal isc).getD (n - k) 0 * coeffs.getD k 0)
            else 0) (-2 ^ (ab - 1))) (2 ^ (ab - 1) - 1)) os : ℤ) : ℚ) / 2 ^ 15 := by
  constructor
  · simp only [fpScaledInput]
    rw [getD_map_of_lt _ _ _ hn 0 0]
    exact wrap32_eq_self hlo hhi
  · rw [(apply_fixed_point_filter_spec signal coeffs ab os isc).1,
      getD_map_range _ hn, fpMacc_eq_sum]

/-- Witness for C2 (amended) at `signal = [1/2]`, `coeffs = [16384]`,
32-bit accumulator, `output_shift = 15`, unit input scaling, sample 0. -/
theorem c2_scaled_input_and_output_witness :
    (0 : ℕ) < ([1/2] : List ℚ).length ∧
    (-2 ^ 31 ≤ truncQ (([1/2] : List ℚ).getD 0 0 * (truncQ ((1 : ℚ) * 2 ^ 15) : ℚ))) ∧
    (truncQ (([1/2] : List ℚ).getD 0 0 * (truncQ ((1 : ℚ) * 2 ^ 15) : ℚ)) ≤ 2 ^ 31 - 1) ∧
    ((fpScaledInput [1/2] 1).getD 0 0
        = truncQ (([1/2] : List ℚ).getD 0 0 * (truncQ ((1 : ℚ) * 2 ^ 15) : ℚ)) ∧
      (apply_fixed_point_filter [1/2] [16384] 32 15 1).1.getD 0 0
        = ((asr (min (max (∑ k in Finset.range ([16384] : List ℤ).length,
              if k ≤ 0 then wrap32 ((fpScaledInput [1/2] 1).getD (0 - k) 0 *
                ([16384] : List ℤ).getD k 0) else 0) (-2 ^ (32 - 1))) (2 ^ (32 - 1) - 1))
            15 : ℤ) : ℚ) / 2 ^ 15) := by
  have hval : truncQ (([1/2] : List ℚ).getD 0 0 * (truncQ ((1 : ℚ) * 2 ^ 15) : ℚ)) = 16384 := by
    rw [show (([1/2] : List ℚ).getD 0 0) = (1/2 : ℚ) from rfl]
    rw [show truncQ ((1 : ℚ) * 2 ^ 15) = 32768 from by
      unfold truncQ
      rw [if_neg (by norm_num), show ((1 : ℚ) * 2 ^ 15) = ((32768 : ℤ) : ℚ) by norm_num,
        Int.floor_intCast]]
    unfold truncQ
    rw [if_neg (by norm_num), show ((1/2 : ℚ) * ((32768 : ℤ) : ℚ)) = ((16384 : ℤ) : ℚ) by
      norm_num, Int.floor_intCast]
  exact ⟨by norm_num, by rw [hval]; norm_num, by rw [hval]; norm_num,
    c2_scaled_input_and_output [1/2] [16384] 32 15 1 0 (by norm_num)
      (by rw [hval]; norm_num) (by rw [hval]; norm_num)⟩

/-- C3: the filter never raises on accumulator overflow; the overflow counter
counts exactly the samples whose accumulated sum leaves
`[-2^(accumulator_bits-1), 2^(accumulator_bits-1)-1]`, each such sample is
used clamped (saturated, not wrapped) into that range, and
`overflow_rate = overflow_count / len(signal)`. -/
theorem c3_accumulator_saturation_and_rate (signal : List ℚ) (coeffs : List ℤ)
    (ab os : ℕ) (isc : ℚ) (_hab : 1 ≤ ab) (_hN : 0 < signal.length) :
    (apply_fixed_point_filter signal coeffs ab os isc).2.overflow_count
      = ((Finset.range signal.length).filter fun n =>
          2 ^ (ab - 1) - 1 < fpMacc (fpScaledInput signal isc) coeffs n ∨
            fpMacc (fpScaledInput signal isc) coeffs n < -2 ^ (ab - 1)).card ∧
    (apply_fixed_point_filter signal coeffs ab os isc).2.overflow_rate
      = ((apply_fixed_point_filter signal coeffs ab os isc).2.overflow_count : ℚ)
        / signal.length ∧
    ∀ n, n < signal.length →
      (apply_fixed_point_filter signal coeffs ab os isc).1.getD n 0
        = ((asr (min (max (fpMacc (fpScaledInput signal isc) coeffs n) (-2 ^ (ab - 1)))
            (2 ^ (ab - 1) - 1)) os : ℤ) : ℚ) / 2 ^ 15 ∧
      -2 ^ (ab - 1) ≤ min (max (fpMacc (fpScaledInput signal isc) coeffs n) (-2 ^ (ab - 1)))
          (2 ^ (ab - 1) - 1) ∧
      min (max (fpMacc (fpScaledInput signal isc) coeffs n) (-2 ^ (ab - 1)))
          (2 ^ (ab - 1) - 1) ≤ 2 ^ (ab - 1) - 1 := by
  refine ⟨?_, ?_, ?_⟩
  · rw [(apply_fixed_point_filter_spec signal coeffs ab os isc).2,
      countP_range_eq_card_filter (fun n =>
        2 ^ (ab - 1) - 1 < fpMacc (fpScaledInput signal isc) coeffs n ∨
          fpMacc (fpScaledInput signal isc) coeffs n < -2 ^ (ab - 1)) signal.length]
  · rfl
  · intro n hn
    have h1 : (1 : ℤ) ≤ 2 ^ (ab - 1) := by exact_mod_cast Nat.one_le_two_pow (n := ab - 1)
    have hmm : (-2 ^ (ab - 1) : ℤ) ≤ 2 ^ (ab - 1) - 1 := by linarith
    refine ⟨?_, le_min (le_max_right _ _) hmm, min_le_right _ _⟩
    rw [(apply_fixed_point_filter_spec signal coeffs ab os isc).1, getD_map_range _ hn]

/-- Witness for C3 at `signal = [0]`, `coeffs = [1]`, 32-bit accumulator. -/
theorem c3_accumulator_saturation_and_rate_witness :
    (1 : ℕ) ≤ 32 ∧ (0 : ℕ) < ([(0 : ℚ)] : List ℚ).length ∧
    ((apply_fixed_point_filter [(0 : ℚ)] [(1 : ℤ)] 32 15 1).2.overflow_count
        = ((Finset.range ([(0 : ℚ)] : List ℚ).length).filter fun n =>
            2 ^ (32 - 1) - 1 < fpMacc (fpScaledInput [(0 : ℚ)] 1) [(1 : ℤ)] n ∨
              fpMacc (fpScaledInput [(0 : ℚ)] 1) [(1 : ℤ)] n < -2 ^ (32 - 1)).card ∧
      (apply_fixed_point_filter [(0 : ℚ)] [(1 : ℤ)] 32 15 1).2.overflow_rate
        = ((apply_fixed_point_filter [(0 : ℚ)] [(1 : ℤ)] 32 15 1).2.overflow_count : ℚ)
          / ([(0 : ℚ)] : List ℚ).length ∧
      ∀ n, n < ([(0 : ℚ)] : List ℚ).length →
        (apply_fixed_point_filter [(0 : ℚ)] [(1 : ℤ)] 32 15 1).1.getD n 0
          = ((asr (min (max (fpMacc (fpScaledInput [(0 : ℚ)] 1) [(1 : ℤ)] n) (-2 ^ (32 - 1)))
              (2 ^ (32 - 1) - 1)) 15 : ℤ) : ℚ) / 2 ^ 15 ∧
        -2 ^ (32 - 1) ≤ min (max (fpMacc (fpScaledInput [(0 : ℚ)] 1) [(1 : ℤ)] n)
            (-2 ^ (32 - 1))) (2 ^ (32 - 1) - 1) ∧
        min (max (fpMacc (fpScaledInput [(0 : ℚ)] 1) [(1 : ℤ)] n) (-2 ^ (32 - 1)))
            (2 ^ (32 - 1) - 1) ≤ 2 ^ (32 - 1) - 1) :=
  ⟨by norm_num, by norm_num,
    c3_accumulator_saturation_and_rate [(0 : ℚ)] [(1 : ℤ)] 32 15 1 (by norm_num) (by norm_num)⟩

/-! ## `simulate_8bit_adc` (adc_simulation.py, lines 13-114) -/

/-- The quantized integer level of one biased sample (lines 56-73): clip to
the ADC range (`np.clip`), normalize to `[0,1]`, quantize with
`np.floor(normalized * num_levels)`, and clamp to `[0, num_levels-1]`. -/
def adcQuantLevel (adc_min adc_max : ℚ) (bits : ℕ) (v : ℚ) : ℤ :=
  let clipped := min (max v adc_min) adc_max
  let num_levels : ℤ := 2 ^ bits
  min (max ⌊(clipped - adc_min) / (adc_max - adc_min) * (num_levels : ℚ)⌋ 0) (num_levels - 1)

/-- The reconstructed voltage of one biased sample (line 76):
`quantized_levels / num_levels * (adc_max - adc_min) + adc_min`. -/
def adcQuantVoltage (adc_min adc_max : ℚ) (bits : ℕ) (v : ℚ) : ℚ :=
  ((adcQuantLevel adc_min adc_max bits v : ℚ) / ((2 ^ bits : ℤ) : ℚ)) * (adc_max - adc_min)
    + adc_min

/-- Report of `simulate_8bit_adc` (fields a claim reads; `snr_db = none`
models the `float('inf')` sentinel, `some r` models `10*log10 r` with the
power ratio `r` kept exact; the transcendental `enob` and the echoed
ranges are omitted). -/
structure AdcInfo where
  num_levels : ℤ
  lsb_voltage : ℚ
  utilized_levels : ℤ
  utilization : ℚ
  clipped_samples : ℕ
  clipping_rate : ℚ
  snr_db : Option ℚ

/-- Embeds `simulate_8bit_adc` with the optional Gaussian-noise path disabled
(`add_noise=False`, the default; the noise branch draws from an RNG and is
outside the reproducible path): add the DC bias, count clipped samples,
quantize each sample, reconstruct, remove the bias, and report the metrics.
This total function is the returning branch; the `ValueError` that `np.max`
raises on an empty signal is carried by `simulate_8bit_adc_checked` below. -/
def simulate_8bit_adc (signal : List ℚ) (adc_min adc_max dc_bias : ℚ) (bits : ℕ) :
    List ℚ × AdcInfo :=
  let biased_signal := signal.map (· + dc_bias)
  let clipped_samples := biased_signal.countP fun v => decide (v < adc_min ∨ adc_max < v)
  let num_levels : ℤ := 2 ^ bits
  let lsb := (adc_max - adc_min) / (num_levels : ℚ)
  let quantized_levels := biased_signal.map (adcQuantLevel adc_min adc_max bits)
  let digitized_signal := biased_signal.map fun v =>
    adcQuantVoltage adc_min adc_max bits v - dc_bias
  let quantization_error := List.zipWith (· - ·) signal digitized_signal
  let noise_power := varQ quantization_error
  let original_power := varQ signal
  let utilized_levels := listMax quantized_levels - listMin quantized_levels + 1
  (digitized_signal,
    { num_levels := num_levels
      lsb_voltage := lsb
      utilized_levels := utilized_levels
      utilization := (utilized_levels : ℚ) / (num_levels : ℚ)
      clipped_samples := clipped_samples
      clipping_rate := (clipped_samples : ℚ) / signal.length
      snr_db := if 0 < noise_power then some (original_power / noise_power) else none })

theorem adcQuantLevel_nonneg (adc_min adc_max : ℚ) (bits : ℕ) (v : ℚ) :
    0 ≤ adcQuantLevel adc_min adc_max bits v := by
  unfold adcQuantLevel
  have h1 : (1 : ℤ) ≤ 2 ^ bits := by exact_mod_cast Nat.one_le_two_pow (n := bits)
  exact le_min (le_max_right _ _) (by omega)

theorem adcQuantLevel_le (adc_min adc_max : ℚ) (bits : ℕ) (v : ℚ) :
    adcQuantLevel adc_min adc_max bits v ≤ 2 ^ bits - 1 := by
  unfold adcQuantLevel
  exact min_le_right _ _

/-- A voltage of the reconstruction form with an in-range level quantizes back
to exactly that level. -/
theorem adcQuantLevel_voltage_form {adc_min adc_max : ℚ} (h : adc_min < adc_max)
    (bits : ℕ) (z : ℤ) (h0 : 0 ≤ z) (h1 : z ≤ 2 ^ bits - 1) :
    adcQuantLevel adc_min adc_max bits
      (((z : ℚ) / ((2 ^ bits : ℤ) : ℚ)) * (adc_max - adc_min) + adc_min) = z := by
  have hd : (0 : ℚ) < adc_max - adc_min := by linarith
  have hLz : (0 : ℤ) < 2 ^ bits := by positivity
  have hL : (0 : ℚ) < ((2 ^ bits : ℤ) : ℚ) := by exact_mod_cast hLz
  have hz0 : (0 : ℚ) ≤ (z : ℚ) := by exact_mod_cast h0
  have hz1 : (z : ℚ) ≤ ((2 ^ bits : ℤ) : ℚ) := by
    have : z ≤ 2 ^ bits := by omega
    exact_mod_cast this
  have hw1 : adc_min ≤ (z : ℚ) / ((2 ^ bits : ℤ) : ℚ) * (adc_max - adc_min) + adc_min := by
    have := mul_nonneg (div_nonneg hz0 hL.le) hd.le
    linarith
  have hw2 : (z : ℚ) / ((2 ^ bits : ℤ) : ℚ) * (adc_max - adc_min) + adc_min ≤ adc_max := by
    have hle1 : (z : ℚ) / ((2 ^ bits : ℤ) : ℚ) ≤ 1 := by
      rw [div_le_one hL]; exact hz1
    nlinarith
  simp only [adcQuantLevel]
  rw [max_eq_left hw1, min_eq_left hw2]
  rw [show ((z : ℚ) / ((2 ^ bits : ℤ) : ℚ) * (adc_max - adc_min) + adc_min - adc_min)
      / (adc_max - adc_min) * ((2 ^ bits : ℤ) : ℚ) = (z : ℚ) by field_simp; ring]
  rw [Int.floor_intCast, max_eq_left h0, min_eq_left h1]

/-- The quantization map of `simulate_8bit_adc` is idempotent on voltages. -/
theorem adcQuantVoltage_idem {adc_min adc_max : ℚ} (h : adc_min < adc_max)
    (bits : ℕ) (v : ℚ) :
    adcQuantVoltage adc_min adc_max bits (adcQuantVoltage adc_min adc_max bits v)
      = adcQuantVoltage adc_min adc_max bits v := by
  have hlev : adcQuantLevel adc_min adc_max bits (adcQuantVoltage adc_min adc_max bits v)
      = adcQuantLevel adc_min adc_max bits v :=
    adcQuantLevel_voltage_form h bits (adcQuantLevel adc_min adc_max bits v)
      (adcQuantLevel_nonneg adc_min adc_max bits v) (adcQuantLevel_le adc_min adc_max bits v)
  calc adcQuantVoltage adc_min adc_max bits (adcQuantVoltage adc_min adc_max bits v)
      = ((adcQuantLevel adc_min adc_max bits (adcQuantVoltage adc_min adc_max bits v) : ℚ)
          / ((2 ^ bits : ℤ) : ℚ)) * (adc_max - adc_min) + adc_min := rfl
    _ = ((adcQuantLevel adc_min adc_max bits v : ℚ) / ((2 ^ bits : ℤ) : ℚ))
          * (adc_max - adc_min) + adc_min := by rw [hlev]
    _ = adcQuantVoltage adc_min adc_max bits v := rfl

/-- The first component of `simulate_8bit_adc` in closed form. -/
theorem simulate_8bit_adc_fst (signal : List ℚ) (adc_min adc_max dc_bias : ℚ)
    (bits : ℕ) :
    (simulate_8bit_adc signal adc_min adc_max dc_bias bits).1
      = signal.map fun s => adcQuantVoltage adc_min adc_max bits (s + dc_bias) - dc_bias := by
  simp only [simulate_8bit_adc, List.map_map]
  rfl

/-- C5: with noise disabled and a fixed valid configuration, applying
`simulate_8bit_adc` to its own output reproduces that output exactly: the
quantization map is a projection. -/
theorem c5_quantizer_idempotent (signal : List ℚ) (adc_min adc_max dc_bias : ℚ)
    (bits : ℕ) (h : adc_min < adc_max) :
    (simulate_8bit_adc (simulate_8bit_adc signal adc_min adc_max dc_bias bits).1
        adc_min adc_max dc_bias bits).1
      = (simulate_8bit_adc signal adc_min adc_max dc_bias bits).1 := by
  have hfun : ((fun s => adcQuantVoltage adc_min adc_max bits (s + dc_bias) - dc_bias) ∘
      (fun s => adcQuantVoltage adc_min adc_max bits (s + dc_bias) - dc_bias)) =
      fun s => adcQuantVoltage adc_min adc_max bits (s + dc_bias) - dc_bias := by
    funext s
    simp only [Function.comp_apply]
    rw [sub_add_cancel, adcQuantVoltage_idem h]
  rw [simulate_8bit_adc_fst, simulate_8bit_adc_fst, List.map_map, hfun]

/-- Witness for C5 at `signal = [1/3]`, the default configuration
`(0, 5/2)`, bias `5/4`, 8 bits. -/
theorem c5_quantizer_idempotent_witness :
    (0 : ℚ) < 5/2 ∧
    (simulate_8bit_adc (simulate_8bit_adc [1/3] 0 (5/2) (5/4) 8).1 0 (5/2) (5/4) 8).1
      = (simulate_8bit_adc [1/3] 0 (5/2) (5/4) 8).1 :=
  ⟨by norm_num, c5_quantizer_idempotent [1/3] 0 (5/2) (5/4) 8 (by norm_num)⟩

theorem zipWith_replicate_same {α β γ : Type} (f : α → β → γ) (n : ℕ) (a : α) (b : β) :
    List.zipWith f (List.replicate n a) (List.replicate n b) = List.replicate n (f a b) := by
  induction n with
  | zero => simp
  | succ m ih => simp [List.replicate_succ, ih]

theorem varQ_replicate_zero (N : ℕ) : varQ (List.replicate N (0 : ℚ)) = 0 := by
  unfold varQ meanQ
  simp [List.sum_replicate]

/-- Evaluation of the quantizer's voltage at the mid-range biased sample
`0 + 5/4` of the default configuration: the reconstruction is exactly `5/4`. -/
theorem adc_mid_sample_eval : adcQuantVoltage 0 (5/2) 8 ((0 : ℚ) + 5/4) = 5/4 := by
  have hlev : adcQuantLevel 0 (5/2) 8 ((0 : ℚ) + 5/4) = 128 := by
    simp only [adcQuantLevel]
    rw [show (min (max ((0 : ℚ) + 5/4) 0) (5/2)) = 5/4 by norm_num [max_def, min_def]]
    rw [show ((5/4 : ℚ) - 0) / ((5/2 : ℚ) - 0) * (((2 ^ 8 : ℤ)) : ℚ) = ((128 : ℤ) : ℚ) by
      norm_num]
    rw [Int.floor_intCast]
    decide
  unfold adcQuantVoltage
  rw [hlev]
  norm_num

/-- The raise path of `simulate_8bit_adc` on an empty signal: at line 94
`np.max(quantized_levels)` raises `ValueError` on the empty array, so the
function never returns there.  This wraps the total embedding with that
guard; the `Except.error` carries numpy's message. -/
def simulate_8bit_adc_checked (signal : List ℚ) (adc_min adc_max dc_bias : ℚ)
    (bits : ℕ) : Except String (List ℚ × AdcInfo) :=
  if signal = [] then
    Except.error "zero-size array to reduction operation maximum which has no identity"
  else Except.ok (simulate_8bit_adc signal adc_min adc_max dc_bias bits)

/-- C6 counterexample: at length `N = 0` the claim fails: `np.max` of the
empty `quantized_levels` array raises `ValueError` (adc_simulation.py line
94), so `simulate_8bit_adc` never returns an output, let alone one with the
infinite SNR sentinel. -/
theorem c6_counterexample :
    simulate_8bit_adc_checked (List.replicate 0 (0 : ℚ)) 0 (5/2) (5/4) 8
      = Except.error
          "zero-size array to reduction operation maximum which has no identity" := by
  rfl

/-- C6 (amended): for every nonempty length `N ≥ 1`, quantizing the all-zero
signal with the default configuration `(0, 2.5)`, bias `1.25`, 8 bits takes no
error path, returns the all-zero signal exactly, and reports the infinite SNR
sentinel. -/
theorem c6_zero_signal_exact_and_snr_inf (N : ℕ) (hN : 0 < N) :
    simulate_8bit_adc_checked (List.replicate N 0) 0 (5/2) (5/4) 8
      = Except.ok (simulate_8bit_adc (List.replicate N 0) 0 (5/2) (5/4) 8) ∧
    (simulate_8bit_adc (List.replicate N 0) 0 (5/2) (5/4) 8).1 = List.replicate N 0 ∧
    (simulate_8bit_adc (List.replicate N 0) 0 (5/2) (5/4) 8).2.snr_db = none := by
  have hstep : adcQuantVoltage 0 (5/2) 8 ((0 : ℚ) + 5/4) - 5/4 = 0 := by
    rw [adc_mid_sample_eval]; norm_num
  have hne : List.replicate N (0 : ℚ) ≠ [] := by
    intro hc
    have hlen := congrArg List.length hc
    simp only [List.length_replicate, List.length_nil] at hlen
    omega
  have hout : (simulate_8bit_adc (List.replicate N 0) 0 (5/2) (5/4) 8).1
      = List.replicate N 0 := by
    rw [simulate_8bit_adc_fst, List.map_replicate, hstep]
  refine ⟨by simp only [simulate_8bit_adc_checked]; rw [if_neg hne], hout, ?_⟩
  simp only [simulate_8bit_adc, List.map_replicate]
  rw [hstep, zipWith_replicate_same, show ((0 : ℚ) - 0) = 0 from by norm_num,
    varQ_replicate_zero]
  norm_num

/-- Witness for C6 (amended) at `N = 1`. -/
theorem c6_zero_signal_exact_and_snr_inf_witness :
    (0 : ℕ) < 1 ∧
    (simulate_8bit_adc_checked (List.replicate 1 (0 : ℚ)) 0 (5/2) (5/4) 8
        = Except.ok (simulate_8bit_adc (List.replicate 1 (0 : ℚ)) 0 (5/2) (5/4) 8) ∧
      (simulate_8bit_adc (List.replicate 1 (0 : ℚ)) 0 (5/2) (5/4) 8).1
        = List.replicate 1 (0 : ℚ) ∧
      (simulate_8bit_adc (List.replicate 1 (0 : ℚ)) 0 (5/2) (5/4) 8).2.snr_db = none) :=
  ⟨by norm_num, c6_zero_signal_exact_and_snr_inf 1 (by norm_num)⟩

theorem le_foldl_max (xs : List ℤ) (a : ℤ) : a ≤ xs.foldl max a := by
  induction xs generalizing a with
  | nil => simp
  | cons x xs ih => exact le_trans (le_max_left a x) (ih (max a x))

theorem mem_le_foldl_max (xs : List ℤ) (a : ℤ) : ∀ x ∈ xs, x ≤ xs.foldl max a := by
  induction xs generalizing a with
  | nil => simp
  | cons y ys ih =>
    intro x hx
    rcases List.mem_cons.mp hx with rfl | hmem
    · exact le_trans (le_max_right a x) (le_foldl_max ys (max a x))
    · exact ih (max a y) x hmem

theorem foldl_min_le (xs : List ℤ) (a : ℤ) : xs.foldl min a ≤ a := by
  induction xs generalizing a with
  | nil => simp
  | cons x xs ih => exact le_trans (ih (min a x)) (min_le_left a x)

theorem foldl_min_le_mem (xs : List ℤ) (a : ℤ) : ∀ x ∈ xs, xs.foldl min a ≤ x := by
  induction xs generalizing a with
  | nil => simp
  | cons y ys ih =>
    intro x hx
    rcases List.mem_cons.mp hx with rfl | hmem
    · exact le_trans (foldl_min_le ys (min a x)) (min_le_right a x)
    · exact ih (min a y) x hmem

theorem le_listMax {l : List ℤ} {x : ℤ} (hx : x ∈ l) : x ≤ listMax l := by
  cases l with
  | nil => simp at hx
  | cons y ys =>
    rcases List.mem_cons.mp hx with rfl | hmem
    · exact le_foldl_max ys x
    · exact mem_le_foldl_max ys y x hmem

theorem listMin_le {l : List ℤ} {x : ℤ} (hx : x ∈ l) : listMin l ≤ x := by
  cases l with
  | nil => simp at hx
  | cons y ys =>
    rcases List.mem_cons.mp hx with rfl | hmem
    · exact foldl_min_le ys x
    · exact foldl_min_le_mem ys y x hmem

/-- The number of distinct values of a nonempty integer list is at most the
span `max - min + 1`. -/
theorem dedup_length_le_span (l : List ℤ) (hl : l ≠ []) :
    (l.dedup.length : ℤ) ≤ listMax l - listMin l + 1 := by
  obtain ⟨x0, hx0⟩ : ∃ x, x ∈ l := List.exists_mem_of_ne_nil l hl
  have hsub : l.toFinset ⊆ Finset.Icc (listMin l) (listMax l) := by
    intro x hx
    rw [List.mem_toFinset] at hx
    exact Finset.mem_Icc.mpr ⟨listMin_le hx, le_listMax hx⟩
  have hcard : l.toFinset.card ≤ (Finset.Icc (listMin l) (listMax l)).card :=
    Finset.card_le_card hsub
  rw [Int.card_Icc] at hcard
  have hminmax : listMin l ≤ listMax l := le_trans (listMin_le hx0) (le_listMax hx0)
  have hdl : l.dedup.length = l.toFinset.card := (List.card_toFinset l).symm
  rw [hdl]
  omega

/-- C7 counterexample: for `signal = [0, 3/5]`, range `(0,1)`, no bias, 2 bits,
the quantized levels are `{0, 2}`: two distinct levels are used, so the
claimed value is `2/4`, but the report's `utilization` is the span-based
`(2 - 0 + 1)/4 = 3/4`. -/
theorem c7_counterexample :
    (simulate_8bit_adc [0, 3/5] 0 1 0 2).2.utilization
      ≠ (((([0, (3 : ℚ)/5].map (· + 0)).map (adcQuantLevel 0 1 2)).dedup.length : ℤ) : ℚ)
        / ((2 ^ 2 : ℤ) : ℚ) := by
  have hl0 : adcQuantLevel 0 1 2 ((0 : ℚ) + 0) = 0 := by
    simp only [adcQuantLevel]
    rw [show (min (max ((0 : ℚ) + 0) 0) 1) = 0 by norm_num [max_def, min_def]]
    rw [show ((0 : ℚ) - 0) / ((1 : ℚ) - 0) * (((2 ^ 2 : ℤ)) : ℚ) = ((0 : ℤ) : ℚ) by norm_num]
    rw [Int.floor_intCast]
    decide
  have hl1 : adcQuantLevel 0 1 2 ((3 : ℚ)/5 + 0) = 2 := by
    simp only [adcQuantLevel]
    rw [show (min (max ((3 : ℚ)/5 + 0) 0) 1) = 3/5 by norm_num [max_def, min_def]]
    have hfl : ⌊((3 : ℚ)/5 - 0) / ((1 : ℚ) - 0) * (((2 ^ 2 : ℤ)) : ℚ)⌋ = 2 := by
      rw [Int.floor_eq_iff]
      constructor
      · norm_num
      · norm_num
    rw [hfl]
    decide
  simp only [simulate_8bit_adc, List.map_cons, List.map_nil, hl0, hl1]
  rw [show ([(0 : ℤ), 2].dedup.length : ℤ) = 2 from by decide]
  rw [show listMax [(0 : ℤ), 2] = 2 from by decide, show listMin [(0 : ℤ), 2] = 0 from by decide]
  norm_num

/-- C7 (amended): `utilization` is the span-based ratio
`(max_level - min_level + 1) / 2^bits`, an upper bound of (not equal to) the
distinct-levels ratio claimed by the spec. -/
theorem c7_utilization_is_span_ratio (signal : List ℚ) (adc_min adc_max dc_bias : ℚ)
    (bits : ℕ) (h : signal ≠ []) :
    (simulate_8bit_adc signal adc_min adc_max dc_bias bits).2.utilization
      = ((listMax ((signal.map (· + dc_bias)).map (adcQuantLevel adc_min adc_max bits))
          - listMin ((signal.map (· + dc_bias)).map (adcQuantLevel adc_min adc_max bits))
          + 1 : ℤ) : ℚ) / ((2 ^ bits : ℤ) : ℚ) ∧
    ((((signal.map (· + dc_bias)).map (adcQuantLevel adc_min adc_max bits)).dedup.length : ℤ))
      ≤ listMax ((signal.map (· + dc_bias)).map (adcQuantLevel adc_min adc_max bits))
        - listMin ((signal.map (· + dc_bias)).map (adcQuantLevel adc_min adc_max bits)) + 1 := by
  constructor
  · rfl
  · apply dedup_length_le_span
    simp only [ne_eq, List.map_eq_nil_iff]
    exact h

/-- Witness for C7 (amended) at `signal = [0, 3/5]`, range `(0,1)`, 2 bits. -/
theorem c7_utilization_is_span_ratio_witness :
    ([0, (3 : ℚ)/5] : List ℚ) ≠ [] ∧
    ((simulate_8bit_adc [0, 3/5] 0 1 0 2).2.utilization
        = ((listMax (([0, (3 : ℚ)/5].map (· + 0)).map (adcQuantLevel 0 1 2))
            - listMin (([0, (3 : ℚ)/5].map (· + 0)).map (adcQuantLevel 0 1 2))
            + 1 : ℤ) : ℚ) / ((2 ^ 2 : ℤ) : ℚ) ∧
      (((([0, (3 : ℚ)/5].map (· + 0)).map (adcQuantLevel 0 1 2)).dedup.length : ℤ))
        ≤ listMax (([0, (3 : ℚ)/5].map (· + 0)).map (adcQuantLevel 0 1 2))
          - listMin (([0, (3 : ℚ)/5].map (· + 0)).map (adcQuantLevel 0 1 2)) + 1) :=
  ⟨by simp, c7_utilization_is_span_ratio [0, 3/5] 0 1 0 2 (by simp)⟩

/-- C9 counterexample: the sample `2` lies strictly inside the default range
`(0, 5/2)`, yet with the default bias `5/4` the biased value `13/4` exceeds
`adc_max`, so `clipped_samples = 1`, not `0`: clipping is decided on the
biased signal, not on the raw input. -/
theorem c9_counterexample :
    (0 : ℚ) < 2 ∧ (2 : ℚ) < 5/2 ∧
    (simulate_8bit_adc [2] 0 (5/2) (5/4) 8).2.clipped_samples = 1 := by
  refine ⟨by norm_num, by norm_num, ?_⟩
  simp only [simulate_8bit_adc, List.map_cons, List.map_nil]
  rw [List.countP_cons, List.countP_nil]
  norm_num

/-- C9 (amended): when every biased sample `s + dc_bias` lies strictly inside
the ADC range, no sample is counted as clipped and the clipping rate is 0. -/
theorem c9_no_clipping_inside_range (signal : List ℚ) (adc_min adc_max dc_bias : ℚ)
    (bits : ℕ) (h : ∀ s ∈ signal, adc_min < s + dc_bias ∧ s + dc_bias < adc_max) :
    (simulate_8bit_adc signal adc_min adc_max dc_bias bits).2.clipped_samples = 0 ∧
    (simulate_8bit_adc signal adc_min adc_max dc_bias bits).2.clipping_rate = 0 := by
  have hcount : (signal.map (· + dc_bias)).countP
      (fun v => decide (v < adc_min ∨ adc_max < v)) = 0 := by
    rw [List.countP_eq_zero]
    intro v hv
    simp only [List.mem_map] at hv
    obtain ⟨s, hs, rfl⟩ := hv
    have hb := h s hs
    simp only [decide_eq_true_eq, not_or, not_lt]
    exact ⟨le_of_lt hb.1, le_of_lt hb.2⟩
  constructor
  · exact hcount
  · show (((signal.map (· + dc_bias)).countP
        (fun v => decide (v < adc_min ∨ adc_max < v)) : ℕ) : ℚ) / signal.length = 0
    rw [hcount]
    norm_num

/-- Witness for C9 (amended) at `signal = [1/10]`, default configuration. -/
theorem c9_no_clipping_inside_range_witness :
    (∀ s ∈ ([1/10] : List ℚ), (0 : ℚ) < s + 5/4 ∧ s + 5/4 < 5/2) ∧
    ((simulate_8bit_adc [1/10] 0 (5/2) (5/4) 8).2.clipped_samples = 0 ∧
      (simulate_8bit_adc [1/10] 0 (5/2) (5/4) 8).2.clipping_rate = 0) :=
  ⟨by intro s hs; simp only [List.mem_singleton] at hs; subst hs; norm_num,
    c9_no_clipping_inside_range [1/10] 0 (5/2) (5/4) 8
      (by intro s hs; simp only [List.mem_singleton] at hs; subst hs; norm_num)⟩

/-! ## ADC quantization step of `apply_fixed_point_filter_8bit_adc`
(fixed_point.py, lines 222-235) -/

/-- The per-sample ADC quantization of `apply_fixed_point_filter_8bit_adc`
(lines 222-235): add the DC bias, clip to the ADC range (`np.clip`),
normalize, quantize with `np.round(normalized * (adc_levels - 1))`, and
reconstruct with denominator `adc_levels - 1`.  (`simulate_8bit_adc` instead
floors against `adc_levels` and reconstructs with denominator
`adc_levels`.) -/
def filterAdcQuantVoltage (adc_min adc_max dc_bias : ℚ) (adc_bits : ℕ) (s : ℚ) : ℚ :=
  let biased := s + dc_bias
  let clipped := min (max biased adc_min) adc_max
  let adc_levels : ℤ := 2 ^ adc_bits
  let normalized := (clipped - adc_min) / (adc_max - adc_min)
  let quantized_level := npRound (normalized * ((adc_levels : ℚ) - 1))
  (quantized_level : ℚ) / ((adc_levels : ℚ) - 1) * (adc_max - adc_min) + adc_min

/-- C10: the ADC step embedded in `apply_fixed_point_filter_8bit_adc` and the
quantization of `simulate_8bit_adc` are different transfer functions: under
the identical configuration (range `(0, 5/2)`, bias `5/4`, 8 bits) the
in-range sample `0` (biased to `5/4`) reconstructs to `64/51` in the former
and to `5/4` in the latter. -/
theorem c10_adc_quantizers_differ :
    (0 : ℚ) ≤ (0 : ℚ) + 5/4 ∧ (0 : ℚ) + 5/4 ≤ 5/2 ∧
    filterAdcQuantVoltage 0 (5/2) (5/4) 8 0 ≠ adcQuantVoltage 0 (5/2) 8 ((0 : ℚ) + 5/4) := by
  refine ⟨by norm_num, by norm_num, ?_⟩
  have hfl : ⌊(255 : ℚ)/2⌋ = 127 := by
    rw [Int.floor_eq_iff]
    constructor
    · norm_num
    · norm_num
  have hnp : npRound ((255 : ℚ)/2) = 128 := by
    unfold npRound
    rw [hfl]
    norm_num
  have hleft : filterAdcQuantVoltage 0 (5/2) (5/4) 8 0 = 64/51 := by
    simp only [filterAdcQuantVoltage]
    rw [show (min (max ((0 : ℚ) + 5/4) 0) (5/2)) = 5/4 by norm_num [max_def, min_def]]
    rw [show ((5/4 : ℚ) - 0) / ((5/2 : ℚ) - 0) * (((2 ^ 8 : ℤ) : ℚ) - 1) = (255 : ℚ)/2 by
      norm_num]
    rw [hnp]
    norm_num
  rw [hleft, adc_mid_sample_eval]
  norm_num

/-! ## Tag dispatch of `generate_iq_signal` (signal_processing.py, lines
56-119) and `design_fir_lowpass` (filter_design.py, lines 57-69)

The waveform synthesis inside each selected branch (trigonometric carriers,
RNG symbol draws, window cosine series) is transcendental or random and is
abstracted to the selected branch tag; the embeddings keep the string
dispatch and the raise behavior, which is all the error-handling claim
concerns. -/

/-- Python `str.lower()` on the ASCII tags used by the dispatch. -/
def strLower (s : String) : String := ⟨s.data.map Char.toLower⟩

/-- The four modulation branches of `generate_iq_signal`. -/
inductive Modulation
  | cw | qpsk | qam16 | chirp

/-- The dispatch and error behavior of `generate_iq_signal` (lines 56-119):
an unknown `modulation_type` raises
`ValueError(f"Unknown modulation type: {modulation_type}")`. -/
def generate_iq_signal (modulation_type : String) : Except String Modulation :=
  if strLower modulation_type = "cw" then Except.ok Modulation.cw
  else if strLower modulation_type = "qpsk" then Except.ok Modulation.qpsk
  else if strLower modulation_type = "qam16" then Except.ok Modulation.qam16
  else if strLower modulation_type = "chirp" then Except.ok Modulation.chirp
  else Except.error ("Unknown modulation type: " ++ modulation_type)

/-- The five window branches of `design_fir_lowpass`. -/
inductive FirWindow
  | hamming | hanning | blackman | bartlett | rectangular

/-- The window dispatch and error behavior of `design_fir_lowpass`
(filter_design.py lines 57-69): an unknown `window` raises
`ValueError(f"Unknown window type: {window}")`. -/
def design_fir_lowpass_window (window : String) : Except String FirWindow :=
  if strLower window = "hamming" then Except.ok FirWindow.hamming
  else if strLower window = "hanning" then Except.ok FirWindow.hanning
  else if strLower window = "blackman" then Except.ok FirWindow.blackman
  else if strLower window = "bartlett" then Except.ok FirWindow.bartlett
  else if strLower window = "rectangular" then Except.ok FirWindow.rectangular
  else Except.error ("Unknown window type: " ++ window)

/-- C8 counterexample: `float_to_fixed_point` performs no bit-width
validation: called with the non-positive widths `int_bits = 0`,
`frac_bits = 0` it raises nothing and returns a result (the clamped-and-
rounded `[0]`, from `max_val = min_val = -1/2`). -/
theorem c8_counterexample : (float_to_fixed_point [(1 : ℚ)/2] 0 0).1 = [0] := by
  simp only [float_to_fixed_point, List.map_cons, List.map_nil]
  rw [show (min (max ((1 : ℚ)/2 * 2 ^ ((0 : ℤ))) (-2 ^ ((0 : ℤ) + 0 - 1)))
      (2 ^ ((0 : ℤ) + 0 - 1) - 1)) = -(1/2 : ℚ) from by norm_num [max_def, min_def]]
  have hfl : ⌊-(1/2 : ℚ)⌋ = -1 := by
    rw [Int.floor_eq_iff]
    constructor
    · norm_num
    · norm_num
  have hnp : npRound (-(1/2 : ℚ)) = 0 := by
    unfold npRound
    rw [hfl]
    norm_num
  rw [hnp, show wrap32 0 = 0 from by decide]

/-- C8 (amended): an unknown modulation name and an unknown window name fail
fast with the descriptive errors of the respective dispatch; bit widths are
not validated: the converter returns a result of the input's length for every
width, non-positive ones included. -/
theorem c8_unknown_tag_errors_no_width_validation
    (m w : String) (coeffs : List ℚ) (int_bits frac_bits : ℤ)
    (hm : strLower m ∉ (["cw", "qpsk", "qam16", "chirp"] : List String))
    (hw : strLower w ∉ (["hamming", "hanning", "blackman", "bartlett",
        "rectangular"] : List String)) :
    generate_iq_signal m = Except.error ("Unknown modulation type: " ++ m) ∧
    design_fir_lowpass_window w = Except.error ("Unknown window type: " ++ w) ∧
    (float_to_fixed_point coeffs int_bits frac_bits).1.length = coeffs.length := by
  refine ⟨?_, ?_, by simp [float_to_fixed_point]⟩
  · have h1 : strLower m ≠ "cw" := fun hc => hm (by rw [hc]; decide)
    have h2 : strLower m ≠ "qpsk" := fun hc => hm (by rw [hc]; decide)
    have h3 : strLower m ≠ "qam16" := fun hc => hm (by rw [hc]; decide)
    have h4 : strLower m ≠ "chirp" := fun hc => hm (by rw [hc]; decide)
    simp only [generate_iq_signal, if_neg h1, if_neg h2, if_neg h3, if_neg h4]
  · have h1 : strLower w ≠ "hamming" := fun hc => hw (by rw [hc]; decide)
    have h2 : strLower w ≠ "hanning" := fun hc => hw (by rw [hc]; decide)
    have h3 : strLower w ≠ "blackman" := fun hc => hw (by rw [hc]; decide)
    have h4 : strLower w ≠ "bartlett" := fun hc => hw (by rw [hc]; decide)
    have h5 : strLower w ≠ "rectangular" := fun hc => hw (by rw [hc]; decide)
    simp only [design_fir_lowpass_window, if_neg h1, if_neg h2, if_neg h3, if_neg h4, if_neg h5]

/-- Witness for C8 (amended) at the unknown tags `"FM"` and `"kaiser"`. -/
theorem c8_unknown_tag_errors_no_width_validation_witness :
    strLower "FM" ∉ (["cw", "qpsk", "qam16", "chirp"] : List String) ∧
    strLower "kaiser" ∉ (["hamming", "hanning", "blackman", "bartlett",
        "rectangular"] : List String) ∧
    (generate_iq_signal "FM" = Except.error ("Unknown modulation type: " ++ "FM") ∧
      design_fir_lowpass_window "kaiser" = Except.error ("Unknown window type: " ++ "kaiser") ∧
      (float_to_fixed_point [(1 : ℚ)/2] 0 0).1.length = ([(1 : ℚ)/2] : List ℚ).length) :=
  ⟨by decide, by decide,
    c8_unknown_tag_errors_no_width_validation "FM" "kaiser" [(1 : ℚ)/2] 0 0
      (by decide) (by decide)⟩
